import Mathlib

/-!
# Verification of the TuneTransformer chord engine

This file is a shallow embedding, in Lean 4, of the harmonic-analysis core of
the TuneTransformer MuseScore plugin (`TuneTransformer.js`):

* the chord-symbol parser (`parseChordSymbol` and its helpers `parseMiddleStuff`,
  `parseBackStuff`, regular-expression fragments `frontStuff`/`middleStuff`/`backStuff`),
* the chord expander (`expandChordSpec`),
* the scale deriver (`getScaleForChord`),
* the renderer (`render`, `addBass`, `chordTextToMidiNotes` in raw mode,
  the only mode the retuning workflow uses),
* the snapping engine (`snapNoteToNearestScaleTone`, `snapNoteToNearestChordTone`,
  `alterPitchOfNote`, `pitchToTpc`),
* beat classification (`isSegmentOnStrongBeat`) and tie-chain propagation
  (`isNoteTheLastNoteInTieChain`, `repitchEarlierNotesInTieChain`).

Modelling conventions:

* JavaScript strings are `List Char`; the regular expressions of the source are
  translated into explicit matching functions that reproduce the leftmost /
  alternation-order / greedy semantics of the source patterns on their inputs.
* JavaScript numbers on the code paths below are integers; they are modelled as
  `Int` (or `Nat` for string indices and scale degrees).  The JavaScript `%`
  operator (truncating remainder) is `Int.tmod`.
* A JavaScript object used as a map with integer-like keys (the `chordMap`)
  enumerates its keys in ascending numeric order; it is modelled as an
  association list sorted by key (`ChordMap`), with `cmSet`/`cmDel`/`cmGet`
  reproducing property write / `delete` / read.  All maps built by the source
  are key-sorted, so list order agrees with JavaScript enumeration order.
* In-place mutation of a chord specification (the source mutates
  `chordSpec.number` inside `expandChordSpec` and `chordSpec.letter`/`sharp`/`flat`
  inside `render`) is modelled by returning the updated specification.
* The module-level static `render.lastChordSpec` is threaded explicitly as an
  `Option ChordSpec` state value.
-/

/-- One explicit alteration captured by the middle grammar, e.g. `#9` or `b5`:
`{sharp: tokens[9], flat: tokens[10], number: tokens[11]}` in the source. -/
structure AlterSpec where
  sharp : Bool
  flat : Bool
  number : List Char
deriving DecidableEq, Repr

/-- The bass override captured by the back grammar (`/B`, `/F#`, ...). -/
structure BassSpec where
  letter : Char
  sharp : Bool
  flat : Bool
deriving DecidableEq, Repr

/-- The chord specification produced by `parseChordSymbol`.  Fields that the
JavaScript leaves `undefined` until assigned are `Option`s or `Bool`s
(`undefined` is falsy, so a missing flag is `false`). -/
structure ChordSpec where
  letter : Option Char
  sharp : Bool
  flat : Bool
  major : Bool
  minor : Bool
  diminished : Bool
  halfdim : Bool
  augmented : Bool
  triangle : Bool
  number : Option (List Char)
  sixnine : Bool
  majoralt : Option (List Char)
  alt : Bool
  sus : List (List Char)
  add : List (List Char)
  drop : List (List Char)
  alter : List AlterSpec
  bass : Option BassSpec
deriving DecidableEq, Repr

/-- `var result = {sus: [], add: [], drop: [], alter: []};` -- every other field
starts out `undefined`. -/
def emptySpec : ChordSpec :=
  { letter := none, sharp := false, flat := false, major := false, minor := false
    diminished := false, halfdim := false, augmented := false, triangle := false
    number := none, sixnine := false, majoralt := none, alt := false
    sus := [], add := [], drop := [], alter := [], bass := none }

/-- The chordMap: a JavaScript object keyed by scale-degree numbers, modelled as
a key-sorted association list from scale degree to alteration. -/
abbrev ChordMap := List (Nat × Int)

/-- Property write `m[k] = v` on an integer-keyed object: replaces an existing
key or inserts it; insertion keeps the list sorted by key, matching the
ascending enumeration order JavaScript uses for integer-like keys. -/
def cmSet : ChordMap → Nat → Int → ChordMap
  | [], k, v => [(k, v)]
  | (k', v') :: t, k, v =>
    if k < k' then (k, v) :: (k', v') :: t
    else if k = k' then (k, v) :: t
    else (k', v') :: cmSet t k v

/-- `delete m[k]`. -/
def cmDel : ChordMap → Nat → ChordMap
  | [], _ => []
  | (k', v') :: t, k => if k = k' then t else (k', v') :: cmDel t k

/-- Property read `m[k]`: `some` alteration, or `none` for `undefined`. -/
def cmGet : ChordMap → Nat → Option Int
  | [], _ => none
  | (k', v') :: t, k => if k = k' then some v' else cmGet t k

/-- `letterToSemi = {C: 0, D: 2, E: 4, F: 5, G: 7, A: 9, B: 11}`.  The parser
only ever produces the letters A-G (after upcasing), so the catch-all branch is
unreachable (in JavaScript it would read `undefined`). -/
def letterToSemi (c : Char) : Int :=
  if c = 'C' then 0
  else if c = 'D' then 2
  else if c = 'E' then 4
  else if c = 'F' then 5
  else if c = 'G' then 7
  else if c = 'A' then 9
  else if c = 'B' then 11
  else 0

/-- `letterToInterval(spec)`: interval above C for a letter/sharp/flat triple.
The `none` fallback letter is unreachable: every caller ensures a letter is
present (`render` fills it in first). -/
def letterToInterval (letter : Option Char) (sharp flat : Bool) : Int :=
  let r := letterToSemi (match letter with | some c => c.toUpper | none => 'C')
  let r := if flat then r - 1 else r
  let r := if sharp then r + 1 else r
  let r := if r > 11 then r - 12 else r
  if r < 0 then r + 12 else r

/-- `letterToMidiNote(spec)`: a midi note in the octave below middle C. -/
def letterToMidiNote (letter : Option Char) (sharp flat : Bool) : Int :=
  letterToInterval letter sharp flat + 48

/-! ## The chord-symbol grammar

The source builds three regular expressions (`frontStuff`, `middleStuff`,
`backStuff`) and drives them with `exec`.  Because every component after the
root letter is optional, the patterns never backtrack across groups on any
input: each group independently takes the first alternative that matches at the
current position (within the `(?:Major|...)([0-9]+)` middle alternative the
synonym list is retried until digits follow, which the matcher below
reproduces).  The token lists appear in source order; order encodes priority. -/

/-- `[A-Ga-g]` -/
def isRootLetter (c : Char) : Bool :=
  ('A' ≤ c && c ≤ 'G') || ('a' ≤ c && c ≤ 'g')

/-- `Major|major|Maj|maj|Ma|ma|M|j` -/
def majorToks : List (List Char) :=
  ["Major".toList, "major".toList, "Maj".toList, "maj".toList,
   "Ma".toList, "ma".toList, "M".toList, "j".toList]

/-- `minor|min|mi|m|-|−` -/
def minorToks : List (List Char) :=
  ["minor".toList, "min".toList, "mi".toList, "m".toList, "-".toList, "−".toList]

/-- `dim|o|°` -/
def dimToks : List (List Char) := ["dim".toList, "o".toList, "°".toList]

/-- `ø|O|0` -/
def halfdimToks : List (List Char) := ["ø".toList, "O".toList, "0".toList]

/-- `aug|\+` -/
def augToks : List (List Char) := ["aug".toList, "+".toList]

/-- `[tΔ∆^]` -/
def triangleToks : List (List Char) := ["t".toList, "Δ".toList, "∆".toList, "^".toList]

/-- `69|6-9|6\+9|6\/9` -/
def sixnineToks : List (List Char) :=
  ["69".toList, "6-9".toList, "6+9".toList, "6/9".toList]

/-- If `tok` is a literal prefix of `s`, return the rest of `s`. -/
def dropTok : List Char → List Char → Option (List Char)
  | [], s => some s
  | _, [] => none
  | c :: cs, d :: ds => if c = d then dropTok cs ds else none

/-- First token of `toks` (in order) that is a prefix of `s`; returns the rest. -/
def matchFirstTok : List (List Char) → List Char → Option (List Char)
  | [], _ => none
  | t :: ts, s =>
    match dropTok t s with
    | some rest => some rest
    | none => matchFirstTok ts s

/-- Maximal leading run of `[0-9]` digits, with the rest of the string. -/
def takeDigits : List Char → List Char × List Char
  | [] => ([], [])
  | c :: rest =>
    if c.isDigit then
      let (ds, r) := takeDigits rest
      (c :: ds, r)
    else ([], c :: rest)

/-- `(?:Major|...|j)([0-9]+)` of the middle grammar: first major synonym that is
followed by at least one digit (regex backtracking retries later synonyms when
no digit follows).  Returns the digits and the rest. -/
def matchMajDigits : List (List Char) → List Char → Option (List Char × List Char)
  | [], _ => none
  | t :: ts, s =>
    match dropTok t s with
    | some rest =>
      let (ds, r) := takeDigits rest
      if ds = [] then matchMajDigits ts s else some (ds, r)
    | none => matchMajDigits ts s

/-- `parseInt` on a non-empty digit string. -/
def digitsToNat (ds : List Char) : Nat :=
  ds.foldl (fun a c => a * 10 + (c.toNat - '0'.toNat)) 0

/-- `doNum(result, token, inMiddle)`. -/
def doNum (res : ChordSpec) (token : List Char) (inMiddle : Bool) : ChordSpec :=
  if token = "69".toList then { res with sixnine := true }
  else if inMiddle then { res with add := res.add ++ [token] }
  else { res with number := some token }

/-- One token recognised by the middle grammar (tokens[1] .. tokens[11]). -/
inductive MiddleToken where
  | sixnineTok
  | majoraltTok (num : List Char)
  | altTok
  | susTok (num : Option Char)
  | addTok (num : List Char)
  | dropTok (num : List Char)
  | numTok (num : List Char)
  | alterTok (sharp : Bool) (flat : Bool) (num : List Char)
deriving DecidableEq, Repr

/-- `sus([0-9])?`: the sus keyword takes at most one digit. -/
def matchSus (s : List Char) : Option (MiddleToken × List Char) :=
  match dropTok "sus".toList s with
  | some r =>
    match r with
    | c :: r' => if c.isDigit then some (.susTok (some c), r') else some (.susTok none, r)
    | [] => some (.susTok none, r)
  | none => none

/-- `(?:(?:drop|no)([0-9]+))`. -/
def matchDropNo (s : List Char) : Option (MiddleToken × List Char) :=
  let afterKw :=
    match dropTok "drop".toList s with
    | some r => some r
    | none => dropTok "no".toList s
  match afterKw with
  | some r =>
    let (ds, r') := takeDigits r
    if ds = [] then none else some (.dropTok ds, r')
  | none => none

/-- `(?:([#♯])?([b♭])?([0-9]+))`: optional sharp, optional flat, digits.  The
optional groups are effectively committed: if digits are missing no shorter
accidental consumption can supply them, so plain greedy matching is faithful. -/
def matchAlter (s : List Char) : Option (MiddleToken × List Char) :=
  let (sh, r) :=
    match s with
    | '#' :: r => (true, r)
    | '♯' :: r => (true, r)
    | _ => (false, s)
  let (fl, r') :=
    match r with
    | 'b' :: r2 => (true, r2)
    | '♭' :: r2 => (true, r2)
    | _ => (false, r)
  let (ds, r'') := takeDigits r'
  if ds = [] then none else some (.alterTok sh fl ds, r'')

/-- One `exec` step of the middle regular expression at the current position:
the alternatives in source order; `none` when only the trailing empty
alternative matches (which makes the `parseMiddleStuff` loop stop). -/
def matchMiddleOnce (s : List Char) : Option (MiddleToken × List Char) :=
  match matchFirstTok sixnineToks s with
  | some r => some (.sixnineTok, r)
  | none =>
  match matchMajDigits majorToks s with
  | some (ds, r) => some (.majoraltTok ds, r)
  | none =>
  match dropTok "alt".toList s with
  | some r => some (.altTok, r)
  | none =>
  match matchSus s with
  | some tr => some tr
  | none =>
  match dropTok "add".toList s with
  | some r =>
    let (ds, r') := takeDigits r
    if ds = [] then matchMiddleRest s else some (.addTok ds, r')
  | none => matchMiddleRest s
where
  /-- Alternatives after `add`: drop/no, bare number, accidental+number. -/
  matchMiddleRest (s : List Char) : Option (MiddleToken × List Char) :=
    match matchDropNo s with
    | some tr => some tr
    | none =>
    match takeDigits s with
    | (d :: ds, r) => some (.numTok (d :: ds), r)
    | ([], _) => matchAlter s

/-- Record one middle token into the specification (lines 269-276 of the source). -/
def applyMiddle (res : ChordSpec) : MiddleToken → ChordSpec
  | .sixnineTok => { res with sixnine := true }
  | .majoraltTok n => { res with majoralt := some n }
  | .altTok => { res with alt := true }
  | .susTok d =>
    { res with sus := res.sus ++ [match d with | some c => [c] | none => ['4']] }
  | .addTok n => { res with add := res.add ++ [n] }
  | .dropTok n => { res with drop := res.drop ++ [n] }
  | .numTok n => doNum res n true
  | .alterTok sh fl n => { res with alter := res.alter ++ [⟨sh, fl, n⟩] }

/-- The `parseMiddleStuff` loop.  Every successful match consumes at least one
character, so fuel `s.length + 1` never runs out before the loop's own stopping
condition (an empty match) fires. -/
def parseMiddleLoop : Nat → ChordSpec → List Char → ChordSpec × List Char
  | 0, res, s => (res, s)
  | fuel + 1, res, s =>
    match matchMiddleOnce s with
    | none => (res, s)
    | some (tok, rest) => parseMiddleLoop fuel (applyMiddle res tok) rest

/-- `parseMiddleStuff(result, symbol)`. -/
def parseMiddleStuff (res : ChordSpec) (s : List Char) : ChordSpec × List Char :=
  parseMiddleLoop (s.length + 1) res s

/-- Leftmost match of `backStuff` = `(?:\/([A-G])([#♯])?([b♭])?)`: scan for the
first `/` that is followed by an upper-case letter A-G; characters before the
match are skipped (and dropped by the caller's `substring(lastIndex)`). -/
def findBack : List Char → Option (BassSpec × List Char)
  | [] => none
  | '/' :: rest =>
    match rest with
    | c :: rest' =>
      if 'A' ≤ c && c ≤ 'G' then
        let (sh, r) :=
          match rest' with
          | '#' :: r => (true, r)
          | '♯' :: r => (true, r)
          | _ => (false, rest')
        let (fl, r') :=
          match r with
          | 'b' :: r2 => (true, r2)
          | '♭' :: r2 => (true, r2)
          | _ => (false, r)
        some (⟨c, sh, fl⟩, r')
      else findBack rest
    | [] => none
  | _ :: rest => findBack rest

/-- `parseBackStuff(result, symbol)`: on a match, record the bass and keep the
text after it; with no match `regex.lastIndex` is `0` and the source returns
the empty string. -/
def parseBackStuff (res : ChordSpec) (s : List Char) : ChordSpec × List Char :=
  match findBack s with
  | some (b, rest) => ({ res with bass := some b }, rest)
  | none => (res, [])

/-- `symbol.match(/^\((.*)\)$/)`: strip one pair of parentheses enclosing the
entire symbol. -/
def stripOuterParens (s : List Char) : List Char :=
  match s with
  | '(' :: rest =>
    if rest ≠ [] && rest.getLast? = some ')' then rest.dropLast else s
  | _ => s

/-- Split `s` at its first `)` (the lazy `(.*?)\)` tail). -/
def splitRParen : List Char → Option (List Char × List Char)
  | [] => none
  | ')' :: rest => some ([], rest)
  | c :: rest =>
    match splitRParen rest with
    | some (a, b) => some (c :: a, b)
    | none => none

/-- Leftmost match of `/\((.*?)\)/`: the first `(`, the (lazy) content up to
the next `)`, and the text around the match.  If the first `(` has no later
`)`, no position can match. -/
def findExtra : List Char → Option (List Char × List Char × List Char)
  | [] => none
  | '(' :: rest =>
    match splitRParen rest with
    | some (content, suf) => some ([], content, suf)
    | none => none
  | c :: rest =>
    match findExtra rest with
    | some (pre, content, suf) => some (c :: pre, content, suf)
    | none => none

/-- The extras loop of `parseChordSymbol`: repeatedly remove the leftmost
parenthesized substring, collecting the contents in order.  Each removal
shortens the symbol, so fuel `s.length` suffices. -/
def extractExtras : Nat → List Char → List Char × List (List Char)
  | 0, s => (s, [])
  | fuel + 1, s =>
    match findExtra s with
    | none => (s, [])
    | some (pre, content, suf) =>
      let (s', extras) := extractExtras fuel (pre ++ suf)
      (s', content :: extras)

/-- The single `exec` of `frontStuff` at the start of the symbol: root letter,
optional sharp, optional flat, optional quality token (the six alternative
groups in source order), optional number.  With no leading letter the regex
fails and the symbol is left untouched. -/
def parseFront (res : ChordSpec) (s : List Char) : ChordSpec × List Char :=
  match s with
  | [] => (res, s)
  | c :: rest =>
    if isRootLetter c then
      let res := { res with letter := some c }
      let (res, rest) :=
        match rest with
        | '#' :: r => ({ res with sharp := true }, r)
        | '♯' :: r => ({ res with sharp := true }, r)
        | _ => (res, rest)
      let (res, rest) :=
        match rest with
        | 'b' :: r => ({ res with flat := true }, r)
        | '♭' :: r => ({ res with flat := true }, r)
        | _ => (res, rest)
      let (res, rest) :=
        match matchFirstTok majorToks rest with
        | some r => ({ res with major := true }, r)
        | none =>
        match matchFirstTok minorToks rest with
        | some r => ({ res with minor := true }, r)
        | none =>
        match matchFirstTok dimToks rest with
        | some r => ({ res with diminished := true }, r)
        | none =>
        match matchFirstTok halfdimToks rest with
        | some r => ({ res with halfdim := true }, r)
        | none =>
        match matchFirstTok augToks rest with
        | some r => ({ res with augmented := true }, r)
        | none =>
        match matchFirstTok triangleToks rest with
        | some r => ({ res with triangle := true }, r)
        | none => (res, rest)
      let (num, rest) := takeDigits rest
      if num = [] then (res, rest) else (doNum res num false, rest)
    else (res, s)

/-- `parseChordSymbol(symbol)`. -/
def parseChordSymbol (symbol : List Char) : ChordSpec :=
  let symbol := stripOuterParens symbol
  let (symbol, extras) := extractExtras symbol.length symbol
  let res := emptySpec
  let (res, symbol) := parseFront res symbol
  let (res, symbol) := parseMiddleStuff res symbol
  let (res, _) :=
    if symbol.length > 0 then parseBackStuff res symbol else (res, symbol)
  extras.foldl (fun r e => (parseMiddleStuff r e).1) res

/-! ## Chord expander -/

/-- The final stage of `expandChordSpec`: apply every explicit alteration in
parse order, each writing `a.sharp ? 1 : -1` at its degree. -/
def applyAlters (m : ChordMap) (l : List AlterSpec) : ChordMap :=
  l.foldl (fun m a => cmSet m (digitsToNat a.number) (if a.sharp then 1 else -1)) m

/-- `expandChordSpec(chordSpec)`: builds the chordMap.  The source mutates
`chordSpec.number` when a `majoralt` token was captured; the updated
specification is returned alongside the map. -/
def expandChordSpec (spec : ChordSpec) : ChordMap × ChordSpec :=
  -- seed triad and default seventh by quality
  let seed : ChordMap × Int :=
    if spec.minor then ([(1, 0), (3, -1), (5, 0)], -1)
    else if spec.diminished then
      let seventh : Int := -2
      (cmSet [(1, 0), (3, -1), (5, -1)] 7 seventh, seventh)
    else if spec.halfdim then
      let seventh : Int := -1
      (cmSet [(1, 0), (3, -1), (5, -1)] 7 seventh, seventh)
    else if spec.augmented then ([(1, 0), (3, 0), (5, 1)], -1)
    else -- default is major
      ([(1, 0), (3, 0), (5, 0)], if spec.major then 0 else -1)
  let result := seed.1
  let seventh := seed.2
  -- triangle forces a natural seventh, present
  let tri : ChordMap × Int :=
    if spec.triangle then (cmSet result 7 0, (0 : Int)) else (result, seventh)
  let result := tri.1
  let seventh := tri.2
  -- six-nine
  let result :=
    if spec.sixnine then cmSet (cmSet result 6 0) 9 0 else result
  -- drops
  let result := spec.drop.foldl (fun m d => cmDel m (digitsToNat d)) result
  -- majoralt forces a natural seventh and overwrites the extension number
  let ma : Int × ChordSpec :=
    match spec.majoralt with
    | some n => ((0 : Int), { spec with number := some n })
    | none => (seventh, spec)
  let seventh := ma.1
  let spec := ma.2
  -- the extension number, with cascading inclusion (switch fallthrough)
  let result :=
    match spec.number with
    | some n =>
      if n = "13".toList then cmSet (cmSet (cmSet (cmSet result 13 0) 11 0) 9 0) 7 seventh
      else if n = "11".toList then cmSet (cmSet (cmSet result 11 0) 9 0) 7 seventh
      else if n = "9".toList then cmSet (cmSet result 9 0) 7 seventh
      else if n = "7".toList then cmSet result 7 seventh
      else if n = "6".toList then cmSet result 6 0
      else if n = "5".toList then cmDel result 3
      else result
    | none => result
  -- suspensions set their degree natural and delete the third
  let result := spec.sus.foldl (fun m s => cmDel (cmSet m (digitsToNat s) 0) 3) result
  -- adds
  let result := spec.add.foldl (fun m a => cmSet m (digitsToNat a) 0) result
  -- "alt" is rendered as 7#5#9
  let result :=
    if spec.alt then cmSet (cmSet (cmSet result 7 (-1)) 5 1) 9 1 else result
  -- explicit alterations last, in parse order
  let result := applyAlters result spec.alter
  (result, spec)

/-! ## Renderer -/

/-- `notesemitones = {1:0, 2:2, 3:4, 4:5, 5:7, 6:9, 7:11, 8:12, 9:14, 10:16,
11:17, 12:19, 13:21}`.  A key outside the table would be `undefined` (NaN
pitch) in JavaScript; no map reachable from the engine carries such a key, and
every theorem below stays on the tabulated degrees 1-13. -/
def notesemitones (k : Nat) : Int :=
  if k = 1 then 0 else if k = 2 then 2 else if k = 3 then 4
  else if k = 4 then 5 else if k = 5 then 7 else if k = 6 then 9
  else if k = 7 then 11 else if k = 8 then 12 else if k = 9 then 14
  else if k = 10 then 16 else if k = 11 then 17 else if k = 12 then 19
  else if k = 13 then 21 else 0

/-- `render(chordMap, chordSpec)`: when the specification has no root letter
(bass-only symbols such as "/B") the source copies letter/sharp/flat from the
static `render.lastChordSpec` (default root C), mutating the specification,
then stores the specification in the static.  Returns the midi notes, the
(possibly updated) specification, and the new static state.  The `for (var i
in chordMap)` loop enumerates the integer keys in ascending order, which is the
list order of `ChordMap`. -/
def render (chordMap : ChordMap) (chordSpec : ChordSpec) (lastChordSpec : Option ChordSpec) :
    List Int × ChordSpec × Option ChordSpec :=
  let chordSpec :=
    if chordSpec.letter = none then
      let prevSpec := lastChordSpec.getD { emptySpec with letter := some 'C' }
      { chordSpec with letter := prevSpec.letter, sharp := prevSpec.sharp, flat := prevSpec.flat }
    else chordSpec
  let tonicMidiNote := letterToMidiNote chordSpec.letter chordSpec.sharp chordSpec.flat
  let midiNotes := chordMap.map (fun kv => tonicMidiNote + notesemitones kv.1 + kv.2)
  (midiNotes, chordSpec, some chordSpec)

/-- `addBass(chordSpec, midiNotes)`: bass from the bass override or the root,
dropped an octave when at or above E (52), prepended unless it equals
`midiNotes[0]` (for an empty list `midiNotes[0]` is `undefined`, which never
equals a number, so the bass is prepended). -/
def addBass (chordSpec : ChordSpec) (midiNotes : List Int) : List Int :=
  let bassNote :=
    match chordSpec.bass with
    | some b => letterToMidiNote (some b.letter) b.sharp b.flat
    | none => letterToMidiNote chordSpec.letter chordSpec.sharp chordSpec.flat
  let bassNote := if bassNote ≥ 52 then bassNote - 12 else bassNote
  match midiNotes with
  | [] => [bassNote]
  | h :: t => if bassNote ≠ h then bassNote :: h :: t else h :: t

/-- `chordTextToMidiNotes(text, raw)` with `raw = true`, the only mode the
retuning workflow uses (`prune` and `findOptimumInversion` are skipped).
Threads the `render.lastChordSpec` static explicitly. -/
def chordTextToMidiNotes (text : List Char) (st : Option ChordSpec) :
    List Int × Option ChordSpec :=
  let chordSpec := parseChordSymbol text
  let (chordMap, chordSpec) := expandChordSpec chordSpec
  let (midiNotes, chordSpec, st') := render chordMap chordSpec st
  (addBass chordSpec midiNotes, st')

/-! ## Scale deriver -/

/-- The major scale (played over major chords; dominant chords fall through to
it as well). -/
def majorScale : ChordMap := [(1, 0), (2, 0), (3, 0), (4, 0), (5, 0), (6, 0), (7, 0)]

/-- The natural minor scale. -/
def naturalMinorScale : ChordMap :=
  [(1, 0), (2, 0), (3, -1), (4, 0), (5, 0), (6, -1), (7, -1)]

/-- The whole-half diminished scale (defines a degree 8). -/
def wholeHalfDiminishedScale : ChordMap :=
  [(1, 0), (2, 0), (3, -1), (4, 0), (5, -1), (6, -1), (7, -2), (8, -1)]

/-- The Locrian #2 scale. -/
def locrianSharp2Scale : ChordMap :=
  [(1, 0), (2, 0), (3, -1), (4, 0), (5, -1), (6, -1), (7, -1)]

/-- The whole-tone scale: no degree 7 and -- despite the comment in the source
about an eighth scale degree -- no degree 8 either. -/
def wholeToneScale : ChordMap := [(1, 0), (2, 0), (3, 0), (4, 1), (5, 1), (6, 1)]

/-- The source tests `chordSpec.halfDiminished` (line 880), a property that no
code ever assigns: `parseChordSymbol` assigns `halfdim`.  In JavaScript the
read yields `undefined`, which is falsy for every specification, so the
Locrian-#2 branch of `getScaleForChord` is unreachable. -/
def chordSpecHalfDiminished (_spec : ChordSpec) : Bool := false

/-- The `scaleToUse` selection chain of `getScaleForChord`. -/
def scaleToUseFor (spec : ChordSpec) : ChordMap :=
  if spec.major then majorScale
  else if spec.minor then naturalMinorScale
  else if spec.diminished then wholeHalfDiminishedScale
  else if chordSpecHalfDiminished spec then locrianSharp2Scale
  else if spec.augmented then wholeToneScale
  else majorScale

/-- The `for (var scaleDegree = 1; scaleDegree <= 7; ...)` fill loop: a degree
is filled from the scale only when neither it nor degree+7 is already present
in the chord's own map, and only when the scale defines it. -/
def fillLoop (scale : ChordMap) : List Nat → ChordMap → ChordMap
  | [], m => m
  | d :: ds, m =>
    let m' :=
      if cmGet m d = none ∧ cmGet m (d + 7) = none then
        match cmGet scale d with
        | some v => cmSet m d v
        | none => m
      else m
    fillLoop scale ds m'

/-- The gap-filling stage of `getScaleForChord`: degrees 1-7, then the special
degree-8 copy (`if (scaleToUse[8] !== undefined) chordMap[8] = scaleToUse[8]`). -/
def scaleFill (m scale : ChordMap) : ChordMap :=
  let m₁ := fillLoop scale [1, 2, 3, 4, 5, 6, 7] m
  match cmGet scale 8 with
  | some v => cmSet m₁ 8 v
  | none => m₁

/-- The chordMap produced inside `getScaleForChord` for a chord text, before
rendering (parse, expand, select scale, fill). -/
def getScaleChordMap (text : List Char) : ChordMap × ChordSpec :=
  let chordSpec := parseChordSymbol text
  let ec := expandChordSpec chordSpec
  (scaleFill ec.1 (scaleToUseFor ec.2), ec.2)

/-- `getScaleForChord(chord)`: `[]` for a null chord, otherwise the filled map
rendered and given a bass.  Threads the `render.lastChordSpec` static. -/
def getScaleForChord (chord : Option (List Char)) (st : Option ChordSpec) :
    List Int × Option ChordSpec :=
  match chord with
  | none => ([], st)
  | some text =>
    let (chordMap, chordSpec) := getScaleChordMap text
    let (midiNotes, chordSpec, st') := render chordMap chordSpec st
    (addBass chordSpec midiNotes, st')

/-! ## Snapping, spelling, beats, ties -/

/-- A MuseScore note as the engine reads and writes it: pitch and the two
enharmonic-spelling fields. -/
structure ScoreNote where
  pitch : Int
  tpc1 : Int
  tpc2 : Int
deriving DecidableEq, Repr

/-- `pitchToTpc(pitch)`: the middle column of the fixed 12-entry spelling
table.  `pitch % 12` is the JavaScript truncating remainder; all pitches the
engine produces are non-negative. -/
def pitchToTpc (pitch : Int) : Int :=
  let r := pitch.tmod 12
  if r = 0 then 14 else if r = 1 then 21 else if r = 2 then 16
  else if r = 3 then 11 else if r = 4 then 18 else if r = 5 then 13
  else if r = 6 then 20 else if r = 7 then 15 else if r = 8 then 22
  else if r = 9 then 17 else if r = 10 then 12 else if r = 11 then 19
  else 0

/-- `alterPitchOfNote(note, newPitch)`: rewrite pitch, respell from the table,
preserve the transposition offset `tpc2 - tpc1`. -/
def alterPitchOfNote (note : ScoreNote) (newPitch : Int) : ScoreNote :=
  let tpcDifference := note.tpc2 - note.tpc1
  let tpc1 := pitchToTpc newPitch
  { note with pitch := newPitch, tpc1 := tpc1, tpc2 := tpc1 + tpcDifference }

/-- The interval table both snap functions build: for the i-th target, the
ascending interval `(target - pitch + 1200) % 12` at position 2i and the
descending interval (ascending - 12) at position 2i+1. -/
def computeIntervals (notePitch : Int) : List Int → List Int
  | [] => []
  | t :: ts =>
    let asc := (t - notePitch + 1200).tmod 12
    asc :: (asc - 12) :: computeIntervals notePitch ts

/-- The selection loop: start from `intervals[0]` and replace the current best
only on a strictly smaller absolute value (`Math.abs`). -/
def chooseSmallest : List Int → Int
  | [] => 0 -- unreachable: both callers have a non-empty interval list
  | h :: t => t.foldl (fun s i => if i.natAbs < s.natAbs then i else s) h

/-- `snapNoteToNearestScaleTone(note, scaleTones)`: no-op on an empty target
list, otherwise shift by the chosen interval and respell. -/
def snapNoteToNearestScaleTone (note : ScoreNote) (scaleTones : List Int) : ScoreNote :=
  if scaleTones.length = 0 then note
  else
    let smallestInterval := chooseSmallest (computeIntervals note.pitch scaleTones)
    alterPitchOfNote note (note.pitch + smallestInterval)

/-- `snapNoteToNearestChordTone(note, chord)`: no-op on a null chord, otherwise
snap against `chordTextToMidiNotes(chord, true)`.  Threads the render static. -/
def snapNoteToNearestChordTone (note : ScoreNote) (chord : Option (List Char))
    (st : Option ChordSpec) : ScoreNote × Option ChordSpec :=
  match chord with
  | none => (note, st)
  | some text =>
    let r := chordTextToMidiNotes text st
    let smallestInterval := chooseSmallest (computeIntervals note.pitch r.1)
    (alterPitchOfNote note (note.pitch + smallestInterval), r.2)

/-- A score segment with the fields `isSegmentOnStrongBeat` reads: its tick,
the tick of its measure's first segment, and the measure's actual time
signature. -/
structure ScoreSegment where
  tick : Int
  measureFirstSegmentTick : Int
  timesigNumerator : Nat
  timesigDenominator : Nat
deriving DecidableEq, Repr

/-- `isSegmentOnStrongBeat(segment)`: `(now - start) % (1920 / denominator) === 0`.
`1920 / denominator` is exact for every time-signature denominator in use
(powers of two, all dividing 1920); integer division here agrees with the
JavaScript real division precisely in that case. -/
def isSegmentOnStrongBeat (segment : ScoreSegment) : Bool :=
  let timeSignatureDenominator := segment.timesigDenominator
  let start := segment.measureFirstSegmentTick
  let now := segment.tick
  let wholeNoteDurationInTicks : Int := 1920
  let beatDuration := wholeNoteDurationInTicks / (timeSignatureDenominator : Int)
  let delta := now - start
  delta.tmod beatDuration == 0

/-- `isNoteTheLastNoteInTieChain(note)`: a backward tie and no forward tie. -/
def isNoteTheLastNoteInTieChain (tieBack tieForward : Bool) : Bool :=
  tieBack && !tieForward

/-- `repitchEarlierNotesInTieChain(note)`: the source walks backward through the
`tieBack.startNote` links from `note` and overwrites each earlier note's pitch,
tpc1 and tpc2 with `note`'s.  A tie chain is modelled as the list of notes
strictly before `note`; the walk visits exactly these notes (in reverse order,
which does not affect the result since all receive the same fields). -/
def repitchEarlierNotesInTieChain (note : ScoreNote) : List ScoreNote → List ScoreNote
  | [] => []
  | prev :: rest =>
    { prev with pitch := note.pitch, tpc1 := note.tpc1, tpc2 := note.tpc2 }
      :: repitchEarlierNotesInTieChain note rest

/-! ## Claim-side material

Definitions below whose names start with `spec` or `claimed` transcribe the
words of the specification (for comparison with the code-side definitions
above); everything else is derived from the source. -/

/-- The quality families enumerated by the specification's triad table. -/
inductive QualityKind where
  | noQ | majorQ | minorQ | dimQ | halfdimQ | augQ
deriving DecidableEq, Repr

/-- All quality families. -/
def allQualityKinds : List QualityKind :=
  [.noQ, .majorQ, .minorQ, .dimQ, .halfdimQ, .augQ]

/-- The supported quality tokens of each family (for `noQ`, the empty token). -/
def qualitySyns : QualityKind → List (List Char)
  | .noQ => [[]]
  | .majorQ => majorToks
  | .minorQ => minorToks
  | .dimQ => dimToks
  | .halfdimQ => halfdimToks
  | .augQ => augToks

/-- All root letters `[A-Ga-g]`. -/
def rootLetters : List Char := "ABCDEFGabcdefg".toList

/-- The documented triad-plus-seventh table of the specification: seed triad,
default seventh alteration, and whether the seventh is always present. -/
def claimedExpansion (q : QualityKind) (has7 : Bool) : ChordMap :=
  match q with
  | .minorQ => if has7 then [(1, 0), (3, -1), (5, 0), (7, -1)] else [(1, 0), (3, -1), (5, 0)]
  | .dimQ => [(1, 0), (3, -1), (5, -1), (7, -2)]
  | .halfdimQ => [(1, 0), (3, -1), (5, -1), (7, -1)]
  | .augQ => if has7 then [(1, 0), (3, 0), (5, 1), (7, -1)] else [(1, 0), (3, 0), (5, 1)]
  | .majorQ => if has7 then [(1, 0), (3, 0), (5, 0), (7, 0)] else [(1, 0), (3, 0), (5, 0)]
  | .noQ => if has7 then [(1, 0), (3, 0), (5, 0), (7, -1)] else [(1, 0), (3, 0), (5, 0)]

/-- Parsing then expanding every symbol built from a root letter, at most one
supported quality token and an optional extension number 7 reproduces the
documented table. -/
def c1Check : Bool :=
  rootLetters.all fun L =>
    allQualityKinds.all fun q =>
      (qualitySyns q).all fun tok =>
        [false, true].all fun has7 =>
          let symbol := L :: (tok ++ (if has7 then ['7'] else []))
          decide ((expandChordSpec (parseChordSymbol symbol)).1 = claimedExpansion q has7)

/-- Claim-side candidate list for the snapping search (§4.6 of the
specification): ascending interval `(target - notePitch) mod 12` at position
2i, descending interval (ascending - 12) at position 2i+1, in target order. -/
def specCandidates (notePitch : Int) : List Int → List Int
  | [] => []
  | t :: ts =>
    (t - notePitch).emod 12 :: ((t - notePitch).emod 12 - 12) :: specCandidates notePitch ts

/-- `v` is the first element of `l` whose absolute value is strictly smallest:
every earlier candidate is strictly larger in absolute value and every later
one is at least as large (ties keep the earlier candidate). -/
def FirstStrictMin (l : List Int) (v : Int) : Prop :=
  ∃ l₁ l₂, l = l₁ ++ v :: l₂ ∧ (∀ x ∈ l₁, v.natAbs < x.natAbs) ∧ (∀ x ∈ l₂, v.natAbs ≤ x.natAbs)

/-! ## Helper lemmas -/

theorem cmGet_cmSet_self (m : ChordMap) (k : Nat) (v : Int) :
    cmGet (cmSet m k v) k = some v := by
  induction m with
  | nil => simp [cmSet, cmGet]
  | cons kv t ih =>
    obtain ⟨k', v'⟩ := kv
    by_cases h₁ : k < k'
    · simp [cmSet, cmGet, h₁]
    · by_cases h₂ : k = k'
      · simp [cmSet, cmGet, h₁, h₂]
      · simp [cmSet, cmGet, h₁, h₂, ih]

theorem cmGet_cmSet_ne (m : ChordMap) (k : Nat) (v : Int) (k' : Nat) (h : k' ≠ k) :
    cmGet (cmSet m k v) k' = cmGet m k' := by
  induction m with
  | nil => simp [cmSet, cmGet, h]
  | cons kv t ih =>
    obtain ⟨k₀, v₀⟩ := kv
    by_cases h₁ : k < k₀
    · simp [cmSet, cmGet, h₁, h]
    · by_cases h₂ : k = k₀
      · subst h₂
        simp [cmSet, cmGet, h₁, h]
      · by_cases h₃ : k' = k₀ <;> simp [cmSet, cmGet, h₁, h₂, h₃, ih]

theorem fillLoop_get_notMem (scale : ChordMap) (ds : List Nat) (m : ChordMap) (d : Nat)
    (hd : d ∉ ds) : cmGet (fillLoop scale ds m) d = cmGet m d := by
  induction ds generalizing m with
  | nil => rfl
  | cons d₀ rest ih =>
    have hne : d ≠ d₀ := fun h => hd (h ▸ List.mem_cons_self d₀ rest)
    have hrest : d ∉ rest := fun h => hd (List.mem_cons_of_mem d₀ h)
    show cmGet (fillLoop scale rest _) d = cmGet m d
    rw [ih _ hrest]
    by_cases hc : cmGet m d₀ = none ∧ cmGet m (d₀ + 7) = none
    · simp only [hc, if_pos]
      cases hs : cmGet scale d₀ with
      | none => rfl
      | some v => exact cmGet_cmSet_ne m d₀ v d hne
    · simp only [hc, if_neg, not_false_iff]

theorem fillLoop_get_mem (scale : ChordMap) (ds : List Nat) (m : ChordMap) (d : Nat)
    (hd : d ∈ ds) (hnodup : ds.Nodup) (hbounds : ∀ x ∈ ds, 1 ≤ x ∧ x ≤ 7) :
    cmGet (fillLoop scale ds m) d =
      if cmGet m d = none ∧ cmGet m (d + 7) = none then cmGet scale d else cmGet m d := by
  induction ds generalizing m with
  | nil => cases hd
  | cons d₀ rest ih =>
    have hb₀ := hbounds d₀ (List.mem_cons_self d₀ rest)
    have hbrest : ∀ x ∈ rest, 1 ≤ x ∧ x ≤ 7 :=
      fun x hx => hbounds x (List.mem_cons_of_mem d₀ hx)
    rcases List.mem_cons.mp hd with heq | hmem
    · subst heq
      have hnotRest : d ∉ rest := (List.nodup_cons.mp hnodup).1
      show cmGet (fillLoop scale rest _) d = _
      rw [fillLoop_get_notMem scale rest _ d hnotRest]
      by_cases hc : cmGet m d = none ∧ cmGet m (d + 7) = none
      · simp only [hc, if_pos]
        cases hs : cmGet scale d with
        | none => simp [hc.1]
        | some v => exact cmGet_cmSet_self m d v
      · simp only [hc, if_neg, not_false_iff]
    · have hne : d ≠ d₀ := by
        intro h
        exact (List.nodup_cons.mp hnodup).1 (h ▸ hmem)
      have hd7 : d + 7 ≠ d₀ := by
        have := (hbounds d (List.mem_cons_of_mem d₀ hmem)).1
        omega
      show cmGet (fillLoop scale rest _) d = _
      by_cases hc : cmGet m d₀ = none ∧ cmGet m (d₀ + 7) = none
      · rw [if_pos hc]
        cases hs : cmGet scale d₀ with
        | none =>
          exact ih m hmem (List.nodup_cons.mp hnodup).2 hbrest
        | some v =>
          rw [ih (cmSet m d₀ v) hmem (List.nodup_cons.mp hnodup).2 hbrest,
            cmGet_cmSet_ne m d₀ v d hne, cmGet_cmSet_ne m d₀ v (d + 7) hd7]
      · rw [if_neg hc]
        exact ih m hmem (List.nodup_cons.mp hnodup).2 hbrest

theorem scaleFill_get_low (m scale : ChordMap) (d : Nat) (h1 : 1 ≤ d) (h7 : d ≤ 7) :
    cmGet (scaleFill m scale) d =
      if cmGet m d = none ∧ cmGet m (d + 7) = none then cmGet scale d else cmGet m d := by
  have hmem : d ∈ [1, 2, 3, 4, 5, 6, 7] := by
    simp only [List.mem_cons, List.mem_singleton]
    omega
  have hfill := fillLoop_get_mem scale [1, 2, 3, 4, 5, 6, 7] m d hmem (by decide)
    (by intro x hx; fin_cases hx <;> omega)
  unfold scaleFill
  cases hs : cmGet scale 8 with
  | none => rw [hfill]
  | some v =>
    rw [cmGet_cmSet_ne _ 8 v d (by omega), hfill]

theorem scaleFill_get_eight (m scale : ChordMap) :
    cmGet (scaleFill m scale) 8 =
      match cmGet scale 8 with
      | some v => some v
      | none => cmGet m 8 := by
  have hnot : (8 : Nat) ∉ [1, 2, 3, 4, 5, 6, 7] := by decide
  unfold scaleFill
  cases hs : cmGet scale 8 with
  | none => rw [fillLoop_get_notMem scale _ m 8 hnot]
  | some v => rw [cmGet_cmSet_self]

/-- The selection fold of `chooseSmallest`: either nothing beat the
accumulator (and every scanned element is at least as large in absolute
value), or the result sits in the scanned list, beats the accumulator, beats
everything before it strictly, and is no larger than anything after it. -/
theorem foldl_abs_min_spec : ∀ (t : List Int) (acc v : Int),
    v = t.foldl (fun s i => if i.natAbs < s.natAbs then i else s) acc →
    (v = acc ∧ ∀ x ∈ t, acc.natAbs ≤ x.natAbs) ∨
    (∃ t₁ t₂, t = t₁ ++ v :: t₂ ∧ v.natAbs < acc.natAbs ∧
      (∀ x ∈ t₁, v.natAbs < x.natAbs) ∧ (∀ x ∈ t₂, v.natAbs ≤ x.natAbs))
  | [], _, _, hv => Or.inl ⟨hv, by simp⟩
  | h :: t, acc, v, hv => by
    rw [List.foldl_cons] at hv
    by_cases hlt : h.natAbs < acc.natAbs
    · rw [if_pos hlt] at hv
      rcases foldl_abs_min_spec t h v hv with ⟨heq, hall⟩ | ⟨t₁, t₂, hsplit, hbeat, hpre, hpost⟩
      · subst heq
        exact Or.inr ⟨[], t, by simp, hlt, by simp, hall⟩
      · refine Or.inr ⟨h :: t₁, t₂, by simp [hsplit], lt_trans hbeat hlt, ?_, hpost⟩
        intro x hx
        rcases List.mem_cons.mp hx with rfl | hx'
        · exact hbeat
        · exact hpre x hx'
    · rw [if_neg hlt] at hv
      rcases foldl_abs_min_spec t acc v hv with ⟨heq, hall⟩ | ⟨t₁, t₂, hsplit, hbeat, hpre, hpost⟩
      · refine Or.inl ⟨heq, ?_⟩
        intro x hx
        rcases List.mem_cons.mp hx with rfl | hx'
        · omega
        · exact hall x hx'
      · refine Or.inr ⟨h :: t₁, t₂, by simp [hsplit], hbeat, ?_, hpost⟩
        intro x hx
        rcases List.mem_cons.mp hx with rfl | hx'
        · omega
        · exact hpre x hx'

/-- On a non-empty list, `chooseSmallest` returns the first element of
strictly smallest absolute value. -/
theorem chooseSmallest_firstStrictMin (l : List Int) (hl : l ≠ []) :
    FirstStrictMin l (chooseSmallest l) := by
  cases l with
  | nil => exact absurd rfl hl
  | cons h t =>
    rcases foldl_abs_min_spec t h (chooseSmallest (h :: t)) rfl with
      ⟨heq, hall⟩ | ⟨t₁, t₂, hsplit, _, hpre, hpost⟩
    · refine ⟨[], t, by rw [heq]; rfl, by simp, ?_⟩
      intro x hx
      rw [heq]
      exact hall x hx
    · refine ⟨h :: t₁, t₂, by rw [List.cons_append, ← hsplit], ?_, hpost⟩
      intro x hx
      rcases List.mem_cons.mp hx with rfl | hx'
      · rcases foldl_abs_min_spec t x (chooseSmallest (x :: t)) rfl with ⟨_, _⟩ | ⟨_, _, _, hb, _, _⟩
        · omega
        · exact hb
      · exact hpre x hx'

theorem FirstStrictMin.mem {l : List Int} {v : Int} (h : FirstStrictMin l v) : v ∈ l := by
  obtain ⟨l₁, l₂, rfl, -, -⟩ := h
  exact List.mem_append.mpr (Or.inr (List.mem_cons_self v l₂))

theorem FirstStrictMin.natAbs_le {l : List Int} {v : Int} (h : FirstStrictMin l v) :
    ∀ x ∈ l, v.natAbs ≤ x.natAbs := by
  obtain ⟨l₁, l₂, rfl, hpre, hpost⟩ := h
  intro x hx
  rcases List.mem_append.mp hx with hx₁ | hx₂
  · exact Nat.le_of_lt (hpre x hx₁)
  · rcases List.mem_cons.mp hx₂ with rfl | hx₃
    · exact Nat.le_refl _
    · exact hpost x hx₃

/-- The `+ 1200` in the source exists to keep the dividend of `%` non-negative;
whenever it succeeds (every realistic pitch), the code's truncating remainder
agrees with the specification's mathematical `mod`. -/
theorem computeIntervals_eq_specCandidates (p : Int) (ts : List Int)
    (h : ∀ t ∈ ts, 0 ≤ t - p + 1200) :
    computeIntervals p ts = specCandidates p ts := by
  induction ts with
  | nil => rfl
  | cons t ts ih =>
    have ht := h t (List.mem_cons_self t ts)
    have hmod : (t - p + 1200).tmod 12 = (t - p).emod 12 := by
      rw [Int.tmod_eq_emod ht (by norm_num), show (1200 : Int) = 12 * 100 from rfl,
        Int.add_mul_emod_self_left]
      rfl
    simp only [computeIntervals, specCandidates, hmod,
      ih (fun x hx => h x (List.mem_cons_of_mem t hx))]

/-- Every candidate interval comes from some target, as its ascending or
descending variant. -/
theorem mem_computeIntervals {p v : Int} : ∀ {ts : List Int}, v ∈ computeIntervals p ts →
    ∃ t ∈ ts, v = (t - p + 1200).tmod 12 ∨ v = (t - p + 1200).tmod 12 - 12 := by
  intro ts
  induction ts with
  | nil => intro h; cases h
  | cons t ts ih =>
    intro hv
    rcases List.mem_cons.mp hv with rfl | hv'
    · exact ⟨t, List.mem_cons_self t ts, Or.inl rfl⟩
    · rcases List.mem_cons.mp hv' with rfl | hv'' 
      · exact ⟨t, List.mem_cons_self t ts, Or.inr rfl⟩
      · obtain ⟨t', ht', hor⟩ := ih hv''
        exact ⟨t', List.mem_cons_of_mem t ht', hor⟩

theorem applyAlters_append (m : ChordMap) (l₁ l₂ : List AlterSpec) :
    applyAlters m (l₁ ++ l₂) = applyAlters (applyAlters m l₁) l₂ :=
  List.foldl_append _ _ l₁ l₂

theorem cmGet_applyAlters_notHit (l : List AlterSpec) (m : ChordMap) (d : Nat)
    (h : ∀ b ∈ l, digitsToNat b.number ≠ d) :
    cmGet (applyAlters m l) d = cmGet m d := by
  induction l generalizing m with
  | nil => rfl
  | cons a l ih =>
    show cmGet (applyAlters (cmSet m _ _) l) d = cmGet m d
    rw [ih _ (fun b hb => h b (List.mem_cons_of_mem a hb)),
      cmGet_cmSet_ne m _ _ d (fun hc => h a (List.mem_cons_self a l) hc.symm)]

/-- "Later alteration wins": after applying the whole alteration list, the
value at a degree is the one written by the last alteration targeting it. -/
theorem cmGet_applyAlters_last (m : ChordMap) (l₁ l₂ : List AlterSpec) (a : AlterSpec)
    (h : ∀ b ∈ l₂, digitsToNat b.number ≠ digitsToNat a.number) :
    cmGet (applyAlters m (l₁ ++ a :: l₂)) (digitsToNat a.number) =
      some (if a.sharp then 1 else -1) := by
  rw [applyAlters_append]
  show cmGet (applyAlters (cmSet _ _ _) l₂) _ = _
  rw [cmGet_applyAlters_notHit l₂ _ _ h, cmGet_cmSet_self]

/-! ## Claim theorems -/

set_option maxRecDepth 10000

/-- C1: For every chord symbol consisting of a root letter, at most one
supported quality token, and optionally the extension number 7,
`expandChordSpec (parseChordSymbol symbol)` reproduces the documented
triad-plus-seventh table (`claimedExpansion`): minor yields {1:0, 3:-1, 5:0}
with default seventh -1; diminished yields {1:0, 3:-1, 5:-1} with seventh -2
always present; half-diminished yields {1:0, 3:-1, 5:-1} with seventh -1
always present; augmented yields {1:0, 3:0, 5:1} with default seventh -1; no
quality token or an explicit major token yields {1:0, 3:0, 5:0} with default
seventh -1 (or 0 when the major flag is set).  In particular "Cm7" expands to
exactly {1:0, 3:-1, 5:0, 7:-1}. -/
theorem c1_triad_seventh_table :
    c1Check = true ∧
    (expandChordSpec (parseChordSymbol "Cm7".toList)).1 = [(1, 0), (3, -1), (5, 0), (7, -1)] :=
  ⟨by decide, by decide⟩

/-- C6: explicit alterations are applied last, in parse order, each overwriting
any prior value at its scale degree (the last alteration of a degree wins), and
consequently `expandChordSpec (parseChordSymbol "C7b9#9")` equals
`expandChordSpec (parseChordSymbol "C7#9")`, both being
{1:0, 3:0, 5:0, 7:-1, 9:+1}. -/
theorem c6_last_alteration_wins :
    (∀ (m : ChordMap) (l₁ l₂ : List AlterSpec) (a : AlterSpec),
      (∀ b ∈ l₂, digitsToNat b.number ≠ digitsToNat a.number) →
      cmGet (applyAlters m (l₁ ++ a :: l₂)) (digitsToNat a.number) =
        some (if a.sharp then 1 else -1)) ∧
    (expandChordSpec (parseChordSymbol "C7b9#9".toList)).1 =
      (expandChordSpec (parseChordSymbol "C7#9".toList)).1 ∧
    (expandChordSpec (parseChordSymbol "C7b9#9".toList)).1 =
      [(1, 0), (3, 0), (5, 0), (7, -1), (9, 1)] :=
  ⟨cmGet_applyAlters_last, by decide, by decide⟩

/-- Witness for C6 at the concrete alteration lists of "C7b9#9": the flat-9 is
followed by the sharp-9, so the sharp wins at degree 9. -/
theorem c6_last_alteration_wins_witness :
    cmGet (applyAlters [(1, 0), (3, 0), (5, 0), (7, -1)]
      ([⟨false, true, ['9']⟩] ++ ⟨true, false, ['9']⟩ :: []))
      (digitsToNat (AlterSpec.number ⟨true, false, ['9']⟩)) =
      some (if AlterSpec.sharp ⟨true, false, ['9']⟩ then 1 else -1) :=
  c6_last_alteration_wins.1 [(1, 0), (3, 0), (5, 0), (7, -1)]
    [⟨false, true, ['9']⟩] [] ⟨true, false, ['9']⟩ (by decide)

/-- C7: rendering the expansion of the parsed symbol "C" and adding the bass
yields the C major triad in the engine's fixed reference octave: the root
reference pitch 48 (one octave below middle C) with the pitch classes of
{60, 64, 67}, as root, root+4, root+7 ascending; the bass pitch is 48 and is
not prepended because it equals the lowest rendered pitch. -/
theorem c7_render_round_trip :
    (chordTextToMidiNotes "C".toList none).1 = [48, 48 + 4, 48 + 7] ∧
    letterToMidiNote (some 'C') false false = 48 ∧
    (48 : Int) % 12 = 60 % 12 ∧ (52 : Int) % 12 = 64 % 12 ∧ (55 : Int) % 12 = 67 % 12 ∧
    List.Chain' (· ≤ ·) ((chordTextToMidiNotes "C".toList none).1) ∧
    (chordTextToMidiNotes "C".toList none).1.length = 3 := by
  refine ⟨by decide, by decide, by decide, by decide, by decide, ?_, by decide⟩
  have h : (chordTextToMidiNotes "C".toList none).1 = [48, 48 + 4, 48 + 7] := by decide
  rw [h]
  simp [List.chain'_cons]

/-- C4: after the retuning pass processes the last note of a tie chain (a note
with a backward tie and no forward tie), every earlier note of the chain has
been overwritten with the last note's pitch and both spelling fields; in
particular for three tied notes A, B, C where only C was retuned directly to
pitch 65, after propagation A and B also carry pitch 65. -/
theorem c4_tie_chain_propagation :
    (∀ (earlier : List ScoreNote) (last : ScoreNote) (tieBack tieForward : Bool),
      isNoteTheLastNoteInTieChain tieBack tieForward = true →
      (repitchEarlierNotesInTieChain last earlier).map ScoreNote.pitch =
        List.replicate earlier.length last.pitch ∧
      (∀ n ∈ repitchEarlierNotesInTieChain last earlier,
        n.pitch = last.pitch ∧ n.tpc1 = last.tpc1 ∧ n.tpc2 = last.tpc2)) ∧
    repitchEarlierNotesInTieChain ⟨65, 13, 13⟩ [⟨60, 14, 14⟩, ⟨62, 16, 16⟩] =
      [⟨65, 13, 13⟩, ⟨65, 13, 13⟩] := by
  constructor
  · intro earlier last tb tf _
    constructor
    · induction earlier with
      | nil => rfl
      | cons a t ih =>
        simp only [repitchEarlierNotesInTieChain, List.map_cons, List.length_cons,
          List.replicate_succ, ih, List.cons.injEq, and_true]
    · induction earlier with
      | nil => intro n hn; cases hn
      | cons a t ih =>
        intro n hn
        rcases List.mem_cons.mp hn with rfl | h'
        · exact ⟨rfl, rfl, rfl⟩
        · exact ih n h'
  · decide

/-- Witness for C4: a two-note chain whose last note carries pitch 65 and whose
status as chain end (`tieBack` and no `tieForward`) holds. -/
theorem c4_tie_chain_propagation_witness :
    isNoteTheLastNoteInTieChain true false = true ∧
    (repitchEarlierNotesInTieChain ⟨65, 13, 13⟩ [⟨60, 14, 14⟩, ⟨62, 16, 16⟩]).map
      ScoreNote.pitch = List.replicate 2 65 :=
  ⟨by decide,
   (c4_tie_chain_propagation.1 [⟨60, 14, 14⟩, ⟨62, 16, 16⟩] ⟨65, 13, 13⟩ true false
     (by decide)).1⟩

/-- C5: a score position is a strong beat iff
`(position - measureStart) mod (1920 / timeSignatureDenominator) = 0`, with the
time signature read from the containing measure; the numerator is never used in
the computation.  With denominator 4, an offset of 480 ticks from the measure
start is a strong beat and 240 is not.  (The divisibility hypothesis records
that `1920 / denominator` is exact -- true of every power-of-two denominator --
which is when the integer embedding coincides with JavaScript's real
division.) -/
theorem c5_strong_beat_classification :
    (∀ seg : ScoreSegment,
      (seg.timesigDenominator : Int) ∣ 1920 →
      seg.measureFirstSegmentTick ≤ seg.tick →
      ((isSegmentOnStrongBeat seg = true) ↔
        (seg.tick - seg.measureFirstSegmentTick) %
          ((1920 : Int) / (seg.timesigDenominator : Int)) = 0) ∧
      (∀ n : Nat,
        isSegmentOnStrongBeat { seg with timesigNumerator := n } =
          isSegmentOnStrongBeat seg)) ∧
    isSegmentOnStrongBeat ⟨480, 0, 4, 4⟩ = true ∧
    isSegmentOnStrongBeat ⟨240, 0, 4, 4⟩ = false := by
  refine ⟨?_, by decide, by decide⟩
  intro seg _ hle
  constructor
  · have h0 : (0 : Int) ≤ seg.tick - seg.measureFirstSegmentTick := by omega
    have hb : (0 : Int) ≤ 1920 / (seg.timesigDenominator : Int) :=
      Int.ediv_nonneg (by norm_num) (Int.natCast_nonneg _)
    simp only [isSegmentOnStrongBeat, beq_iff_eq, Int.tmod_eq_emod h0 hb]
  · intro n
    rfl

/-- C8 counterexample: the specification parsed from "C6maj7" is mutated by
`expandChordSpec`, which overwrites its `number` field ("6") with the captured
majoralt number ("7") -- so a Chord Specification is not immutable after
parse. -/
theorem c8_immutability_counterexample :
    (expandChordSpec (parseChordSymbol "C6maj7".toList)).2 ≠
      parseChordSymbol "C6maj7".toList ∧
    (expandChordSpec (parseChordSymbol "C6maj7".toList)).2.number = some ['7'] ∧
    (parseChordSymbol "C6maj7".toList).number = some ['6'] := by
  refine ⟨?_, by decide, by decide⟩
  decide

/-- C8 amended: a Chord Specification is left unmodified by `expandChordSpec`
whenever it carries no majoralt token, and by `render` whenever it has a root
letter; the two exceptions are that `expandChordSpec` overwrites `number` with
the majoralt number, and that `render` fills letter/sharp/flat from the
remembered previous specification when the root letter is absent. -/
theorem c8_immutability_amended :
    ∀ (spec : ChordSpec) (m : ChordMap) (st : Option ChordSpec),
      (spec.majoralt = none → (expandChordSpec spec).2 = spec) ∧
      (spec.letter ≠ none → (render m spec st).2.1 = spec) := by
  intro spec m st
  constructor
  · intro h
    simp only [expandChordSpec, h]
  · intro h
    simp only [render, if_neg h]

/-- Witness for C8 amended at "Cm7", whose specification has a root letter and
no majoralt token. -/
theorem c8_immutability_amended_witness :
    (expandChordSpec (parseChordSymbol "Cm7".toList)).2 = parseChordSymbol "Cm7".toList ∧
    (render [] (parseChordSymbol "Cm7".toList) none).2.1 = parseChordSymbol "Cm7".toList :=
  ⟨(c8_immutability_amended (parseChordSymbol "Cm7".toList) [] none).1 (by decide),
   (c8_immutability_amended (parseChordSymbol "Cm7".toList) [] none).2 (by decide)⟩

/-- C9 counterexample: `render` is not sorted ascending for every Pitch-Class
Map.  The reachable map of "C7#3b4" (degrees 1-13, alterations in {-2..+1},
root C) renders as [48, 53, 52, 55, 58], where the sharpened third (53)
precedes the flattened fourth (52). -/
theorem c9_render_sorted_counterexample :
    (expandChordSpec (parseChordSymbol "C7#3b4".toList)).1 =
      [(1, 0), (3, 1), (4, -1), (5, 0), (7, -1)] ∧
    (∀ kv ∈ (expandChordSpec (parseChordSymbol "C7#3b4".toList)).1,
      1 ≤ kv.1 ∧ kv.1 ≤ 13 ∧ -2 ≤ kv.2 ∧ kv.2 ≤ 1) ∧
    (render (expandChordSpec (parseChordSymbol "C7#3b4".toList)).1
      (expandChordSpec (parseChordSymbol "C7#3b4".toList)).2 none).1 =
      [48, 53, 52, 55, 58] ∧
    ¬ List.Chain' (· ≤ ·)
      ((render (expandChordSpec (parseChordSymbol "C7#3b4".toList)).1
        (expandChordSpec (parseChordSymbol "C7#3b4".toList)).2 none).1) := by
  refine ⟨by decide, by decide, by decide, ?_⟩
  have h : (render (expandChordSpec (parseChordSymbol "C7#3b4".toList)).1
      (expandChordSpec (parseChordSymbol "C7#3b4".toList)).2 none).1 =
      [48, 53, 52, 55, 58] := by decide
  rw [h]
  simp [List.chain'_cons]

/-- C9 amended: `render` emits one pitch per present degree in ascending
scale-degree order (pitch = root reference + semitone offset + alteration);
the sequence is sorted ascending whenever the altered offsets are monotone
over the present degrees -- which a sharpened degree directly below a
flattened one can violate, as in the counterexample. -/
theorem c9_render_sorted_amended :
    ∀ (m : ChordMap) (spec : ChordSpec) (st : Option ChordSpec),
      (∀ kv ∈ m, 1 ≤ kv.1 ∧ kv.1 ≤ 13) →
      List.Chain' (fun a b : Nat × Int =>
        notesemitones a.1 + a.2 ≤ notesemitones b.1 + b.2) m →
      List.Chain' (· ≤ ·) (render m spec st).1 := by
  intro m spec st _ hchain
  show List.Chain' (· ≤ ·) (m.map _)
  rw [List.chain'_map]
  refine hchain.imp ?_
  intro a b hab
  omega

/-- Witness for C9 amended: the Cm7 map has monotone altered offsets, so its
rendering is sorted. -/
theorem c9_render_sorted_amended_witness :
    List.Chain' (· ≤ ·)
      (render [(1, 0), (3, -1), (5, 0), (7, -1)] (parseChordSymbol "Cm7".toList) none).1 :=
  c9_render_sorted_amended [(1, 0), (3, -1), (5, 0), (7, -1)]
    (parseChordSymbol "Cm7".toList) none (by decide)
    (by simp [List.chain'_cons, notesemitones])

/-- C2 counterexample: the claimed per-quality default scales are wrong on two
points.  For the half-diminished chord "C0" the fill uses the natural major
defaults (degree 6 filled with 0, not the Locrian-#2 flat 6), because the
scale selection tests the never-assigned `halfDiminished` property; and for
the augmented chord "C+" no degree 8 is produced at all (the whole-tone table
defines none), contradicting the claimed degree-8 alteration of +1. -/
theorem c2_scale_defaults_counterexample :
    (parseChordSymbol "C0".toList).halfdim = true ∧
    cmGet (getScaleChordMap "C0".toList).1 6 = some 0 ∧
    cmGet (getScaleChordMap "C0".toList).1 6 ≠ some (-1) ∧
    (parseChordSymbol "C+".toList).augmented = true ∧
    cmGet (getScaleChordMap "C+".toList).1 8 = none ∧
    cmGet (getScaleChordMap "C+".toList).1 7 = none := by
  refine ⟨by decide, by decide, ?_, by decide, by decide, by decide⟩
  decide

/-- C2 amended: for every chord specification the scale derivation fills each
degree 1-7 that neither the chord itself nor its degree+7 counterpart
specifies from the selected default scale, copies the default scale's degree 8
whenever it defines one (only the whole-half diminished scale does), and
selects: natural major for an explicit major flag, natural minor for minor,
whole-half diminished for diminished, whole tone (degrees 1-6 only, no degree
7 and no degree 8) for augmented, and natural major for everything else --
including half-diminished specifications, because the Locrian-#2 branch tests
`chordSpec.halfDiminished`, a property the parser never assigns. -/
theorem c2_scale_fill_amended :
    (∀ spec : ChordSpec, spec.major = false → spec.minor = false →
      spec.diminished = false → spec.augmented = false →
      scaleToUseFor spec = majorScale) ∧
    (∀ (m scale : ChordMap) (d : Nat), 1 ≤ d → d ≤ 7 →
      cmGet (scaleFill m scale) d =
        if cmGet m d = none ∧ cmGet m (d + 7) = none then cmGet scale d
        else cmGet m d) ∧
    (∀ m scale : ChordMap,
      cmGet (scaleFill m scale) 8 =
        match cmGet scale 8 with
        | some v => some v
        | none => cmGet m 8) ∧
    (∀ text : List Char,
      (getScaleChordMap text).1 =
        scaleFill (expandChordSpec (parseChordSymbol text)).1
          (scaleToUseFor (expandChordSpec (parseChordSymbol text)).2)) ∧
    cmGet wholeToneScale 7 = none ∧ cmGet wholeToneScale 8 = none ∧
    cmGet wholeHalfDiminishedScale 8 = some (-1) := by
  refine ⟨?_, ?_, scaleFill_get_eight, fun _ => rfl, by decide, by decide, by decide⟩
  · intro spec h1 h2 h3 h4
    simp [scaleToUseFor, h1, h2, h3, h4, chordSpecHalfDiminished]
  · intro m scale d hd1 hd7
    exact scaleFill_get_low m scale d hd1 hd7

/-- Witness for C2 amended: the "C7" specification (all quality flags false)
selects the major scale, and the fill rule evaluated at degree 6 of the Cm7
map against the natural minor scale. -/
theorem c2_scale_fill_amended_witness :
    scaleToUseFor (parseChordSymbol "C7".toList) = majorScale ∧
    cmGet (scaleFill [(1, 0), (3, -1), (5, 0), (7, -1)] naturalMinorScale) 6 =
      (if cmGet [(1, 0), (3, -1), (5, 0), (7, -1)] 6 = none ∧
          cmGet [(1, 0), (3, -1), (5, 0), (7, -1)] (6 + 7) = none
       then cmGet naturalMinorScale 6
       else cmGet [(1, 0), (3, -1), (5, 0), (7, -1)] 6) :=
  ⟨c2_scale_fill_amended.1 (parseChordSymbol "C7".toList)
      (by decide) (by decide) (by decide) (by decide),
   c2_scale_fill_amended.2.1 [(1, 0), (3, -1), (5, 0), (7, -1)] naturalMinorScale 6
      (by decide) (by decide)⟩

/-- C3: for every note and non-empty list of target pitches (in a range where
the source's `+ 1200` offset keeps the dividend of `%` non-negative, true of
all MIDI pitches), the snapping search builds exactly the claimed candidate
list -- ascending interval `(target - notePitch) mod 12` at position 2i,
descending interval (ascending - 12) at position 2i+1 -- scans it in
generation order keeping the first candidate of strictly smallest absolute
value, and sets the new pitch to the old pitch plus the chosen interval.  In
particular snapping pitch 61 against [60, 64, 67] yields pitch 60. -/
theorem c3_interval_selection :
    (∀ (note : ScoreNote) (targets : List Int),
      targets ≠ [] →
      (∀ t ∈ targets, 0 ≤ t - note.pitch + 1200) →
      computeIntervals note.pitch targets = specCandidates note.pitch targets ∧
      FirstStrictMin (specCandidates note.pitch targets)
        (chooseSmallest (computeIntervals note.pitch targets)) ∧
      (snapNoteToNearestScaleTone note targets).pitch =
        note.pitch + chooseSmallest (computeIntervals note.pitch targets)) ∧
    (∀ (note : ScoreNote) (text : List Char) (st : Option ChordSpec),
      (snapNoteToNearestChordTone note (some text) st).1.pitch =
        note.pitch +
          chooseSmallest (computeIntervals note.pitch (chordTextToMidiNotes text st).1)) ∧
    (snapNoteToNearestScaleTone ⟨61, 14, 14⟩ [60, 64, 67]).pitch = 60 := by
  refine ⟨?_, fun note text st => rfl, ?_⟩
  · intro note targets hne hdom
    have heq := computeIntervals_eq_specCandidates note.pitch targets hdom
    have hlen : computeIntervals note.pitch targets ≠ [] := by
      cases targets with
      | nil => exact absurd rfl hne
      | cons t ts => simp [computeIntervals]
    refine ⟨heq, ?_, ?_⟩
    · rw [← heq]
      exact chooseSmallest_firstStrictMin _ hlen
    · unfold snapNoteToNearestScaleTone
      rw [if_neg (by simpa using hne)]
      rfl
  · decide

/-- Witness for C3: the pitch-61-against-C-major instance. -/
theorem c3_interval_selection_witness :
    computeIntervals 61 [60, 64, 67] = specCandidates 61 [60, 64, 67] ∧
    (snapNoteToNearestScaleTone ⟨61, 14, 14⟩ [60, 64, 67]).pitch =
      61 + chooseSmallest (computeIntervals 61 [60, 64, 67]) :=
  ⟨(c3_interval_selection.1 ⟨61, 14, 14⟩ [60, 64, 67] (by decide) (by decide)).1,
   (c3_interval_selection.1 ⟨61, 14, 14⟩ [60, 64, 67] (by decide) (by decide)).2.2⟩

/-- C10: for every note and non-empty target list (with the same domain
condition as C3), the snapped pitch differs from the original by at most 6
semitones, and its pitch class equals the pitch class of at least one
target. -/
theorem c10_snap_distance_and_pitch_class :
    ∀ (note : ScoreNote) (targets : List Int),
      targets ≠ [] →
      (∀ t ∈ targets, 0 ≤ t - note.pitch + 1200) →
      ((snapNoteToNearestScaleTone note targets).pitch - note.pitch).natAbs ≤ 6 ∧
      ∃ t ∈ targets,
        (snapNoteToNearestScaleTone note targets).pitch % 12 = t % 12 := by
  intro note targets hne hdom
  cases targets with
  | nil => exact absurd rfl hne
  | cons t ts =>
    have hdomt : 0 ≤ t - note.pitch + 1200 := hdom t (List.mem_cons_self t ts)
    have hlen : computeIntervals note.pitch (t :: ts) ≠ [] := by
      simp [computeIntervals]
    have hfsm := chooseSmallest_firstStrictMin _ hlen
    have hall := hfsm.natAbs_le
    have hmem := hfsm.mem
    have hpitch : (snapNoteToNearestScaleTone note (t :: ts)).pitch =
        note.pitch + chooseSmallest (computeIntervals note.pitch (t :: ts)) := by
      unfold snapNoteToNearestScaleTone
      rw [if_neg (by simp)]
      rfl
    have hla : (t - note.pitch + 1200).tmod 12 ∈ computeIntervals note.pitch (t :: ts) := by
      simp [computeIntervals]
    have hlb : (t - note.pitch + 1200).tmod 12 - 12 ∈
        computeIntervals note.pitch (t :: ts) := by
      simp [computeIntervals]
    have ha1 := hall _ hla
    have ha2 := hall _ hlb
    have haeq : (t - note.pitch + 1200).tmod 12 = (t - note.pitch + 1200) % 12 :=
      Int.tmod_eq_emod hdomt (by norm_num)
    have hb1 : 0 ≤ (t - note.pitch + 1200) % 12 := Int.emod_nonneg _ (by norm_num)
    have hb2 : (t - note.pitch + 1200) % 12 < 12 := Int.emod_lt_of_pos _ (by norm_num)
    rw [haeq] at ha1 ha2
    constructor
    · rw [hpitch]
      have hsimp : note.pitch + chooseSmallest (computeIntervals note.pitch (t :: ts)) -
          note.pitch = chooseSmallest (computeIntervals note.pitch (t :: ts)) := by ring
      rw [hsimp]
      omega
    · obtain ⟨t₀, ht₀, hor⟩ := mem_computeIntervals hmem
      refine ⟨t₀, ht₀, ?_⟩
      have haeq₀ : (t₀ - note.pitch + 1200).tmod 12 = (t₀ - note.pitch + 1200) % 12 :=
        Int.tmod_eq_emod (hdom t₀ ht₀) (by norm_num)
      rw [haeq₀] at hor
      rw [hpitch]
      rcases hor with h | h <;> rw [h] <;> omega

/-- Witness for C10 at pitch 61 against the C major triad pitches. -/
theorem c10_snap_distance_and_pitch_class_witness :
    ((snapNoteToNearestScaleTone ⟨61, 14, 14⟩ [60, 64, 67]).pitch - 61).natAbs ≤ 6 ∧
    ∃ t ∈ [(60 : Int), 64, 67],
      (snapNoteToNearestScaleTone ⟨61, 14, 14⟩ [60, 64, 67]).pitch % 12 = t % 12 :=
  c10_snap_distance_and_pitch_class ⟨61, 14, 14⟩ [60, 64, 67] (by decide) (by decide)

/-- Witness for C5 at the 4/4 measure starting at tick 0, segment tick 480. -/
theorem c5_strong_beat_classification_witness :
    (isSegmentOnStrongBeat ⟨480, 0, 4, 4⟩ = true ↔
      ((480 : Int) - 0) % ((1920 : Int) / ((4 : Nat) : Int)) = 0) ∧
    isSegmentOnStrongBeat ⟨480, 0, 7, 4⟩ = isSegmentOnStrongBeat ⟨480, 0, 4, 4⟩ :=
  ⟨(c5_strong_beat_classification.1 ⟨480, 0, 4, 4⟩ (by norm_num) (by norm_num)).1,
   (c5_strong_beat_classification.1 ⟨480, 0, 4, 4⟩ (by norm_num) (by norm_num)).2 7⟩
